import Mathlib

/-!
Shallow embedding of the view-lineage resolver of `src/data_lineage.py`
(`run_data_lineage_ui` and its nested helpers `fetch_view_definition`,
`fetch_table_metadata`, `extract_dependencies`, `build_full_lineage`, and the
report section at the bottom of the file).

Modelling conventions:
* The Teradata catalog behind the two `DBC` queries is a finite association
  list; a fetch either yields rows (`Except.ok`) or raises (`Except.error`),
  mirroring the driver call inside the `try` blocks.
* Python dicts keep insertion order, Python sets are modelled as lists with
  membership tests; the iteration order of `set` objects is unspecified in
  Python, so `extract_dependencies` is canonicalized to first-insertion order
  (claims that could depend on that order are stated up to set equality).
* The recursion of `build_full_lineage` is embedded with explicit fuel so that
  the function is structurally recursive (hence kernel-evaluable); a computable
  bound `fuelBound` is proved sufficient (`resolveF_stable`), which is the
  formal counterpart of termination of the Python recursion.
* `st.error` calls are recorded in an `advisories` field; calls to the two
  fetch helpers are recorded in `view_fetch_log` / `table_fetch_log` so that
  "fetched exactly once" style claims are observable.
-/

namespace DataLineage

/-- One row of the `DBC.Columns` query issued by `fetch_table_metadata`:
ColumnName, ColumnFormat, ColumnType, ColumnLength, Nullable,
CompressValueList. -/
structure ColumnMeta where
  columnName : String
  columnFormat : String
  columnType : String
  columnLength : String
  nullable : String
  compressValueList : String
deriving DecidableEq, Repr

/-- The catalog consulted by the two fetch helpers.  `views` is keyed by the
name matched against `TableName` in the `DBC.TablesV` query; `tables` is keyed
by the `(DatabaseName, TableName)` pair of the `DBC.Columns` query.  An
`Except.error` value models the driver raising during that fetch. -/
structure Catalog where
  views : List (String × Except String String)
  tables : List ((String × String) × Except String (List ColumnMeta))

/-- `fetch_view_definition` (src/data_lineage.py:24-40): returns the RequestText
of the first matching row, or `none` when no row matches; a raised exception is
caught, reported via `st.error` (second component), and `None` is returned. -/
def fetch_view_definition (cat : Catalog) (view_name : String) :
    Option String × List String :=
  match cat.views.lookup view_name with
  | some (Except.ok text) => (some text, [])
  | some (Except.error e) => (none, ["Error fetching view definition: " ++ e])
  | none => (none, [])

/-- `fetch_table_metadata` (src/data_lineage.py:43-60): returns the column rows
when `fetchall()` yields a non-empty list, `none` otherwise; a raised exception
is caught, reported via `st.error`, and `None` is returned. -/
def fetch_table_metadata (cat : Catalog) (database_name table_name : String) :
    Option (List ColumnMeta) × List String :=
  match cat.tables.lookup (database_name, table_name) with
  | some (Except.ok rows) => if rows.isEmpty then (none, []) else (some rows, [])
  | some (Except.error e) =>
      (none, ["Error fetching metadata for table " ++ database_name ++ "." ++
              table_name ++ ": " ++ e])
  | none => (none, [])

/-- Python `\w` over the ASCII range: letters, digits, underscore. -/
def isPyWordChar (c : Char) : Bool := c.isAlphanum || c == '_'

/-- The character class `[\w\.]` of the extraction regex. -/
def isIdentChar (c : Char) : Bool := isPyWordChar c || c == '.'

/-- Python `\s`: space, tab, newline, carriage return, vertical tab, form feed. -/
def isPySpace (c : Char) : Bool :=
  c == ' ' || c == '\t' || c == '\n' || c == '\r' || c == '\x0b' || c == '\x0c'

/-- Case-insensitive literal match of a (lowercase) keyword at the head of the
input, returning the remaining characters. -/
def matchKeywordCI : List Char → List Char → Option (List Char)
  | [], cs => some cs
  | _ :: _, [] => none
  | k :: ks, c :: cs => if c.toLower == k then matchKeywordCI ks cs else none

/-- After the keyword: `\s+` (at least one whitespace character) then the
capture `([\w\.]+)`, a maximal non-empty run of word-or-dot characters.
Returns the capture and the remaining input. -/
def matchIdent (rest : List Char) : Option (List Char × List Char) :=
  if (rest.takeWhile isPySpace).isEmpty then none
  else if ((rest.dropWhile isPySpace).takeWhile isIdentChar).isEmpty then none
  else some ((rest.dropWhile isPySpace).takeWhile isIdentChar,
    (rest.dropWhile isPySpace).dropWhile isIdentChar)

/-- One alternative of the regex `\bFROM\s+([\w\.]+)` / `\bJOIN\s+([\w\.]+)`
(without the leading word boundary, which the scanner checks). -/
def matchClause (kw : List Char) (cs : List Char) :
    Option (List Char × List Char) :=
  (matchKeywordCI kw cs).bind matchIdent

/-- The scan of `re.findall(r'\bFROM\s+([\w\.]+)|\bJOIN\s+([\w\.]+)', sql,
re.IGNORECASE)`: left-to-right, non-overlapping, `FROM` alternative tried
first; `prevWord` tracks whether the previous character is a word character
(the `\b` test, since both keywords start with a word character).  Fuel is the
remaining input length plus one; every step consumes at least one character,
so the zero-fuel case is never reached from `extract_dependencies`. -/
def tryHit (prevWord : Bool) (cs : List Char) : Option (List Char × List Char) :=
  if prevWord then none
  else
    match matchClause ['f', 'r', 'o', 'm'] cs with
    | some r => some r
    | none => matchClause ['j', 'o', 'i', 'n'] cs

def scanFromJoin : Nat → Bool → List Char → List String
  | 0, _, _ => []
  | _ + 1, _, [] => []
  | fuel + 1, prevWord, c :: cs =>
      match tryHit prevWord (c :: cs) with
      | some (ident, rest) =>
          String.mk ident :: scanFromJoin fuel (isPyWordChar (ident.getLastD '.')) rest
      | none => scanFromJoin fuel (isPyWordChar c) cs

/-- Python `str.strip()` on a character list. -/
def pyStripChars (cs : List Char) : List Char :=
  ((cs.dropWhile isPySpace).reverse.dropWhile isPySpace).reverse

/-- Python `str.strip()`. -/
def pyStrip (s : String) : String := String.mk (pyStripChars s.data)

/-- `set.add`, canonicalized to first-insertion order. -/
def setAdd (acc : List String) (x : String) : List String :=
  if acc.contains x then acc else acc ++ [x]

/-- `extract_dependencies` (src/data_lineage.py:63-71): collect the stripped
captures of the scan into a set and return it as a list. -/
def extract_dependencies (view_sql : String) : List String :=
  (scanFromJoin (view_sql.length + 1) false view_sql.data).foldl
    (fun acc item => setAdd acc (pyStrip item)) []

/-- The `networkx.DiGraph` accumulated by `build_full_lineage`: node list in
insertion order, edge list in insertion order, no duplicate nodes or edges. -/
structure Digraph where
  nodes : List String
  edges : List (String × String)
deriving DecidableEq, Repr

def addNode (g : Digraph) (n : String) : Digraph :=
  if g.nodes.contains n then g else { g with nodes := g.nodes ++ [n] }

/-- `DiGraph.add_edge(u, v)`: inserts both endpoints as nodes and the edge,
each only if not already present. -/
def addEdge (g : Digraph) (u v : String) : Digraph :=
  let g1 := addNode (addNode g u) v
  if g1.edges.contains (u, v) then g1 else { g1 with edges := g1.edges ++ [(u, v)] }

/-- Python `str.split('.', 1)` on a name known to contain a dot: characters
before the first `'.'`, and everything after it. -/
def splitDotChars : List Char → List Char → List Char × List Char
  | acc, [] => (acc.reverse, [])
  | acc, c :: cs => if c == '.' then (acc.reverse, cs) else splitDotChars (c :: acc) cs

/-- `view_name.split('.', 1)` as used at src/data_lineage.py:88. -/
def pySplitDot1 (s : String) : String × String :=
  let p := splitDotChars [] s.data
  (String.mk p.1, String.mk p.2)

/-- The `(db_name, tbl_name)` pair computed at src/data_lineage.py:87-91:
split at the first dot, or fall back to schema `"dbc"` for a bare name
(the `'.' in view_name` test, taken on the character list). -/
def tableKeyOf (name : String) : String × String :=
  if name.data.contains '.' then pySplitDot1 name else ("dbc", name)

/-- Python `dict` assignment `d[k] = v`: update in place when the key exists
(keeping its position), append otherwise. -/
def dictInsert {α : Type} (d : List (String × α)) (k : String) (v : α) :
    List (String × α) :=
  if (d.map Prod.fst).contains k then
    d.map (fun p => if p.1 == k then (k, v) else p)
  else d ++ [(k, v)]

/-- The mutable state threaded through `build_full_lineage`: the graph, the
visited set, the two ordered record dicts, plus observational instrumentation
(which names were passed to each fetch helper, and the `st.error` advisories). -/
structure LineageState where
  graph : Digraph
  visited : List String
  ddl_dict : List (String × String)
  table_metadata_dict : List (String × List ColumnMeta)
  view_fetch_log : List String
  table_fetch_log : List (String × String)
  advisories : List String
deriving DecidableEq, Repr

/-- The fresh accumulators created at src/data_lineage.py:115-118. -/
def initState : LineageState :=
  { graph := { nodes := [], edges := [] }, visited := [], ddl_dict := [],
    table_metadata_dict := [], view_fetch_log := [], table_fetch_log := [],
    advisories := [] }

def markVisited (s : LineageState) (name : String) : LineageState :=
  { s with visited := s.visited ++ [name] }

def logViewFetch (s : LineageState) (name : String) (adv : List String) :
    LineageState :=
  { s with view_fetch_log := s.view_fetch_log ++ [name],
           advisories := s.advisories ++ adv }

def logTableFetch (s : LineageState) (key : String × String) (adv : List String) :
    LineageState :=
  { s with table_fetch_log := s.table_fetch_log ++ [key],
           advisories := s.advisories ++ adv }

def recordView (s : LineageState) (name sql : String) : LineageState :=
  { s with ddl_dict := dictInsert s.ddl_dict name sql }

/-- The `else` branch of `build_full_lineage` (src/data_lineage.py:86-95):
treat `name` as a candidate base table, fetch its metadata, and record it only
when a non-empty frame comes back. -/
def resolveTablePath (cat : Catalog) (name : String) (s : LineageState) :
    LineageState :=
  match fetch_table_metadata cat (tableKeyOf name).1 (tableKeyOf name).2 with
  | (some rows, adv) =>
      let s1 := logTableFetch s (tableKeyOf name) adv
      if rows.isEmpty then s1
      else { s1 with table_metadata_dict := dictInsert s1.table_metadata_dict name rows }
  | (none, adv) => logTableFetch s (tableKeyOf name) adv

/-- The recursion task: `visit name` is a call `build_full_lineage(name, ...)`;
`deps ds parent` is the remainder of the `for dep in dependencies` loop of
`parent`'s expansion (each iteration adds the edge `(dep, parent)` and then
recurses into `dep`). -/
inductive WorkItem where
  | visit : String → WorkItem
  | deps : List String → String → WorkItem

/-- `build_full_lineage` (src/data_lineage.py:74-95), fuel-indexed.  The fuel
only bounds the recursion depth; `resolveF_stable` shows `fuelBound` is always
enough, so the zero-fuel clause is unreachable from `build_full_lineage`. -/
def resolveF (cat : Catalog) : Nat → WorkItem → LineageState → LineageState
  | 0, _, s => s
  | _ + 1, WorkItem.deps [] _, s => s
  | fuel + 1, WorkItem.deps (d :: ds) parent, s =>
      resolveF cat fuel (WorkItem.deps ds parent)
        (resolveF cat fuel (WorkItem.visit d) { s with graph := addEdge s.graph d parent })
  | fuel + 1, WorkItem.visit name, s =>
      if s.visited.contains name then s
      else
        match fetch_view_definition cat name with
        | (some sql, adv) =>
            if sql == "" then
              resolveTablePath cat name (logViewFetch (markVisited s name) name adv)
            else
              resolveF cat fuel (WorkItem.deps (extract_dependencies sql) name)
                (recordView (logViewFetch (markVisited s name) name adv) name sql)
        | (none, adv) =>
            resolveTablePath cat name (logViewFetch (markVisited s name) name adv)

/-- Weight of one truthy view entry in the termination measure: its dependency
count plus the two fuel units spent entering the view and its (possibly empty)
dependency loop. -/
def viewWeight (cat : Catalog) (name : String) : Nat :=
  match cat.views.lookup name with
  | some (Except.ok sql) =>
      if sql == "" then 0 else (extract_dependencies sql).length + 2
  | _ => 0

/-- Remaining work: total weight of the truthy view names not yet visited. -/
def needMeasure (cat : Catalog) (visited : List String) : Nat :=
  (((cat.views.map Prod.fst).dedup.filter
      (fun n => !(visited.contains n))).map (viewWeight cat)).sum

/-- A recursion-depth bound sufficient for any root (proved by
`resolveF_stable`). -/
def fuelBound (cat : Catalog) : Nat := needMeasure cat [] + 1

/-- The call `build_full_lineage(view_name, G, visited, {}, {})` made at
src/data_lineage.py:120 on fresh accumulators. -/
def build_full_lineage (cat : Catalog) (root : String) : LineageState :=
  resolveF cat (fuelBound cat) (WorkItem.visit root) initState

/-- Order of the "View Definitions" report section
(src/data_lineage.py:128-131): `reversed(list(ddl_dict.keys()))`. -/
def report_view_order (s : LineageState) : List String :=
  (s.ddl_dict.map Prod.fst).reverse

/-- Order of the "Table Metadata" report section (src/data_lineage.py:133-136):
dict insertion order. -/
def report_table_order (s : LineageState) : List String :=
  s.table_metadata_dict.map Prod.fst

/-- A raising view fetch behaves like an empty `RequestText`: falsy, so the
table fallback runs. -/
def absorbView : Except String String → Except String String
  | Except.ok s => Except.ok s
  | Except.error _ => Except.ok ""

/-- A raising column fetch behaves like an empty `fetchall()`. -/
def absorbTable : Except String (List ColumnMeta) → Except String (List ColumnMeta)
  | Except.ok r => Except.ok r
  | Except.error _ => Except.ok []

/-- The catalog with every raising fetch replaced by an absent result.  Used to
state that collaborator errors are absorbed. -/
def absorbCatalog (cat : Catalog) : Catalog :=
  { views := cat.views.map (fun p => (p.1, absorbView p.2))
    tables := cat.tables.map (fun p => (p.1, absorbTable p.2)) }

/-- Equality of two lineage states on everything except the advisory log. -/
def SilentEq (s t : LineageState) : Prop :=
  s.graph = t.graph ∧ s.visited = t.visited ∧ s.ddl_dict = t.ddl_dict ∧
  s.table_metadata_dict = t.table_metadata_dict ∧
  s.view_fetch_log = t.view_fetch_log ∧ s.table_fetch_log = t.table_fetch_log

instance : DecidablePred (fun p : LineageState × LineageState => SilentEq p.1 p.2) :=
  fun _ => by unfold SilentEq; infer_instance

/-- Extra fuel needed for the pending task on top of the unvisited-view weight. -/
def taskNeed : WorkItem → Nat
  | WorkItem.visit _ => 0
  | WorkItem.deps ds _ => ds.length

/-- The graph built by the traversal: every node is the endpoint of some edge
and every edge endpoint is a node. -/
def GoodGraph (g : Digraph) : Prop :=
  (∀ n ∈ g.nodes, ∃ e ∈ g.edges, n = e.1 ∨ n = e.2) ∧
  (∀ e ∈ g.edges, e.1 ∈ g.nodes ∧ e.2 ∈ g.nodes)

/-- Every fetched name was in the visited set when fetched, and no name is
fetched more than once. -/
def GoodLog (s : LineageState) : Prop :=
  s.view_fetch_log.Nodup ∧ ∀ x ∈ s.view_fetch_log, x ∈ s.visited

/-- Every key of either record dict is visited, and no name is recorded both
as a view and as a base table. -/
def GoodRecords (s : LineageState) : Prop :=
  (∀ k ∈ s.ddl_dict.map Prod.fst, k ∈ s.visited) ∧
  (∀ k ∈ s.table_metadata_dict.map Prod.fst, k ∈ s.visited) ∧
  (∀ k, k ∈ s.ddl_dict.map Prod.fst → k ∉ s.table_metadata_dict.map Prod.fst)

/-! ### Concrete catalogs used to test the claims on explicit inputs -/

/-- A generic column row. -/
def col (n : String) : ColumnMeta := ⟨n, "X(10)", "CV", "10", "Y", ""⟩

/-- Root view A references view B, B references view C, C has no references. -/
def catABC : Catalog :=
  { views := [("A", Except.ok "SELECT * FROM B"), ("B", Except.ok "SELECT * FROM C"),
              ("C", Except.ok "SELECT 1")],
    tables := [] }

/-- Chain A → B → C of views where C references two base tables. -/
def catChainTables : Catalog :=
  { views := [("A", Except.ok "SELECT * FROM B"), ("B", Except.ok "SELECT * FROM C"),
              ("C", Except.ok "SELECT a FROM db1.t1 JOIN db2.t2")],
    tables := [(("db1", "t1"), Except.ok [col "c1"]),
               (("db2", "t2"), Except.ok [col "c2"])] }

/-- A single root view with no extracted dependencies. -/
def catSolo : Catalog := { views := [("A", Except.ok "SELECT 1")], tables := [] }

/-- Root view A references B and C; fetching B's definition raises; B falls
back to a base table, and sibling C is still resolved as a view. -/
def catErr : Catalog :=
  { views := [("A", Except.ok "SELECT * FROM B JOIN C"), ("B", Except.error "boom"),
              ("C", Except.ok "SELECT 1")],
    tables := [(("dbc", "B"), Except.ok [col "bcol"])] }

/-- A cyclic catalog: view A references B and B references A. -/
def catCycle : Catalog :=
  { views := [("A", Except.ok "SELECT * FROM B"), ("B", Except.ok "SELECT * FROM A")],
    tables := [] }

/-- The diamond: A references B and C, both of which reference D. -/
def catDiamond : Catalog :=
  { views := [("A", Except.ok "SELECT * FROM B JOIN C"),
              ("B", Except.ok "SELECT * FROM D"),
              ("C", Except.ok "SELECT * FROM D")],
    tables := [] }

/-- The three columns of the `sales.orders` base table. -/
def salesCols : List ColumnMeta := [col "o1", col "o2", col "o3"]

/-- `sales.orders` is a base table with three columns and no view definition. -/
def catSales : Catalog := { views := [], tables := [(("sales", "orders"), Except.ok salesCols)] }

/-- A bare-named base table under the fallback schema `dbc`. -/
def catOrders : Catalog :=
  { views := [], tables := [(("dbc", "orders"), Except.ok [col "q1"])] }

/-- Root view A references dangling name B (absent from both lookups) and the
base table `db9.t9`. -/
def catDangling : Catalog :=
  { views := [("A", Except.ok "SELECT * FROM B JOIN db9.t9")],
    tables := [(("db9", "t9"), Except.ok [col "t9c"])] }

/-- The empty catalog. -/
def catEmpty : Catalog := { views := [], tables := [] }

/-- A state in which the name `A` has already been visited. -/
def stateVisitedA : LineageState :=
  { initState with visited := ["A"] }

/-! ### Container lemmas -/

theorem contains_iff_mem {α : Type} [BEq α] [LawfulBEq α] (l : List α) (a : α) :
    l.contains a = true ↔ a ∈ l := by
  simp [List.contains, List.elem_iff]

theorem contains_false_iff {α : Type} [BEq α] [LawfulBEq α] (l : List α) (a : α) :
    l.contains a = false ↔ a ∉ l := by
  rw [← Bool.not_eq_true, not_iff_not]; exact contains_iff_mem l a

theorem contains_append_singleton (v : List String) (a n : String) :
    (v ++ [a]).contains n = (v.contains n || n == a) := by
  apply Bool.eq_iff_iff.mpr
  simp [contains_iff_mem, List.mem_append, Bool.or_eq_true, beq_iff_eq]

theorem dictInsert_keys {α : Type} (d : List (String × α)) (k : String) (v : α) (x : String) :
    x ∈ (dictInsert d k v).map Prod.fst ↔ x ∈ d.map Prod.fst ∨ x = k := by
  unfold dictInsert
  by_cases h : (d.map Prod.fst).contains k = true
  · rw [if_pos h]
    have hkeys : (d.map (fun p => if p.1 == k then (k, v) else p)).map Prod.fst
        = d.map Prod.fst := by
      rw [List.map_map]
      refine List.map_congr_left (fun p _ => ?_)
      by_cases hp : p.1 == k
      · simp only [Function.comp_apply, if_pos hp]
        exact (eq_of_beq hp).symm
      · simp only [Function.comp_apply, if_neg hp]
    rw [hkeys]
    constructor
    · exact Or.inl
    · rintro (hx | rfl)
      · exact hx
      · exact (contains_iff_mem _ _).mp h
  · rw [if_neg h]
    simp [or_comm]

theorem dictInsert_of_fresh {α : Type} (d : List (String × α)) (k : String) (v : α)
    (h : (d.map Prod.fst).contains k = false) : dictInsert d k v = d ++ [(k, v)] := by
  unfold dictInsert; rw [h]; rfl

/-! ### Effect of the table-fallback path on the state components -/

theorem resolveTablePath_graph (cat : Catalog) (n : String) (s : LineageState) :
    (resolveTablePath cat n s).graph = s.graph := by
  unfold resolveTablePath
  rcases h : fetch_table_metadata cat (tableKeyOf n).1 (tableKeyOf n).2 with ⟨md, adv⟩
  cases md <;> simp [logTableFetch] <;> split <;> simp [logTableFetch]

theorem resolveTablePath_visited (cat : Catalog) (n : String) (s : LineageState) :
    (resolveTablePath cat n s).visited = s.visited := by
  unfold resolveTablePath
  rcases h : fetch_table_metadata cat (tableKeyOf n).1 (tableKeyOf n).2 with ⟨md, adv⟩
  cases md <;> simp [logTableFetch] <;> split <;> simp [logTableFetch]

theorem resolveTablePath_ddl (cat : Catalog) (n : String) (s : LineageState) :
    (resolveTablePath cat n s).ddl_dict = s.ddl_dict := by
  unfold resolveTablePath
  rcases h : fetch_table_metadata cat (tableKeyOf n).1 (tableKeyOf n).2 with ⟨md, adv⟩
  cases md <;> simp [logTableFetch] <;> split <;> simp [logTableFetch]

theorem resolveTablePath_vlog (cat : Catalog) (n : String) (s : LineageState) :
    (resolveTablePath cat n s).view_fetch_log = s.view_fetch_log := by
  unfold resolveTablePath
  rcases h : fetch_table_metadata cat (tableKeyOf n).1 (tableKeyOf n).2 with ⟨md, adv⟩
  cases md <;> simp [logTableFetch] <;> split <;> simp [logTableFetch]

theorem resolveTablePath_table_keys (cat : Catalog) (n : String) (s : LineageState) (k : String) :
    k ∈ (resolveTablePath cat n s).table_metadata_dict.map Prod.fst →
      k ∈ s.table_metadata_dict.map Prod.fst ∨ k = n := by
  unfold resolveTablePath
  rcases h : fetch_table_metadata cat (tableKeyOf n).1 (tableKeyOf n).2 with ⟨md, adv⟩
  cases md with
  | none => intro hk; exact Or.inl (by simpa [logTableFetch] using hk)
  | some rows =>
      simp only
      split
      · intro hk; exact Or.inl (by simpa [logTableFetch] using hk)
      · intro hk
        simp only [logTableFetch] at hk
        exact (dictInsert_keys _ _ _ _).mp hk

/-! ### Characterizing the fetch helpers by the catalog lookup -/

theorem fetch_view_of_lookup_ok {cat : Catalog} {n sql : String}
    (hl : cat.views.lookup n = some (Except.ok sql)) :
    fetch_view_definition cat n = (some sql, []) := by
  unfold fetch_view_definition; rw [hl]

theorem fetch_view_of_lookup_error {cat : Catalog} {n e : String}
    (hl : cat.views.lookup n = some (Except.error e)) :
    fetch_view_definition cat n = (none, ["Error fetching view definition: " ++ e]) := by
  unfold fetch_view_definition; rw [hl]

theorem fetch_view_of_lookup_none {cat : Catalog} {n : String}
    (hl : cat.views.lookup n = none) : fetch_view_definition cat n = (none, []) := by
  unfold fetch_view_definition; rw [hl]

theorem fetch_view_some {cat : Catalog} {n sql : String} {adv : List String}
    (h : fetch_view_definition cat n = (some sql, adv)) :
    cat.views.lookup n = some (Except.ok sql) := by
  cases hl : cat.views.lookup n with
  | none => rw [fetch_view_of_lookup_none hl] at h; cases h
  | some r =>
      cases r with
      | ok t =>
          rw [fetch_view_of_lookup_ok hl] at h
          have h1 : t = sql := by
            have := congrArg Prod.fst h
            simpa using this
          rw [h1]
      | error e => rw [fetch_view_of_lookup_error hl] at h; cases h

theorem fetch_table_of_lookup_ok {cat : Catalog} {db tbl : String} {rs : List ColumnMeta}
    (hl : cat.tables.lookup (db, tbl) = some (Except.ok rs)) :
    fetch_table_metadata cat db tbl
      = if rs.isEmpty then (none, []) else (some rs, []) := by
  unfold fetch_table_metadata; rw [hl]

theorem fetch_table_of_lookup_error {cat : Catalog} {db tbl e : String}
    (hl : cat.tables.lookup (db, tbl) = some (Except.error e)) :
    fetch_table_metadata cat db tbl
      = (none, ["Error fetching metadata for table " ++ db ++ "." ++ tbl ++ ": " ++ e]) := by
  unfold fetch_table_metadata; rw [hl]

theorem fetch_table_of_lookup_none {cat : Catalog} {db tbl : String}
    (hl : cat.tables.lookup (db, tbl) = none) :
    fetch_table_metadata cat db tbl = (none, []) := by
  unfold fetch_table_metadata; rw [hl]

theorem fetch_table_some_ne_nil {cat : Catalog} {db tbl : String} {rows : List ColumnMeta}
    (h : (fetch_table_metadata cat db tbl).1 = some rows) : rows.isEmpty = false := by
  cases hl : cat.tables.lookup (db, tbl) with
  | none => rw [fetch_table_of_lookup_none hl] at h; cases h
  | some r =>
      cases r with
      | ok rs =>
          rw [fetch_table_of_lookup_ok hl] at h
          by_cases he : rs.isEmpty = true
          · rw [if_pos he] at h; cases h
          · rw [if_neg he] at h
            cases h
            exact Bool.eq_false_iff.mpr he
      | error e => rw [fetch_table_of_lookup_error hl] at h; cases h

/-! ### An induction principle over the reachable state transitions of
`build_full_lineage`: every run is a composition of edge insertions, view
expansions, and table-fallback steps. -/

theorem resolveF_induct (cat : Catalog) (P : LineageState → LineageState → Prop)
    (hrefl : ∀ s, P s s)
    (htrans : ∀ a b c, P a b → P b c → P a c)
    (hedge : ∀ s d p, P s { s with graph := addEdge s.graph d p })
    (hview : ∀ s name sql adv, s.visited.contains name = false →
        P s (recordView (logViewFetch (markVisited s name) name adv) name sql))
    (htable : ∀ s name adv, s.visited.contains name = false →
        P s (resolveTablePath cat name (logViewFetch (markVisited s name) name adv))) :
    ∀ (f : Nat) (t : WorkItem) (s : LineageState), P s (resolveF cat f t s) := by
  intro f
  induction f with
  | zero => intro t s; simp only [resolveF]; exact hrefl s
  | succ f ih =>
    intro t s
    cases t with
    | deps ds parent =>
        cases ds with
        | nil => simp only [resolveF]; exact hrefl s
        | cons d ds =>
            simp only [resolveF]
            refine htrans _ _ _ (hedge s d parent) (htrans _ _ _ (ih _ _) (ih _ _))
    | visit name =>
        by_cases hv : s.visited.contains name = true
        · simp only [resolveF, hv, if_true]; exact hrefl s
        · have hv' : s.visited.contains name = false := Bool.eq_false_iff.mpr hv
          cases hl : cat.views.lookup name with
          | none =>
              simp only [resolveF, hv', Bool.false_eq_true, if_false,
                fetch_view_of_lookup_none hl]
              exact htable s name [] hv'
          | some r =>
              cases r with
              | error e =>
                  simp only [resolveF, hv', Bool.false_eq_true, if_false,
                    fetch_view_of_lookup_error hl]
                  exact htable s name _ hv'
              | ok sql =>
                  by_cases hsql : (sql == "") = true
                  · simp only [resolveF, hv', Bool.false_eq_true, if_false,
                      fetch_view_of_lookup_ok hl, hsql, if_true]
                    exact htable s name [] hv'
                  · have hsql' : (sql == "") = false := Bool.eq_false_iff.mpr hsql
                    simp only [resolveF, hv', Bool.false_eq_true, if_false,
                      fetch_view_of_lookup_ok hl, hsql', if_false]
                    exact htrans _ _ _ (hview s name sql [] hv') (ih _ _)

/-- The visited list only ever grows by appending. -/
theorem visited_extend (cat : Catalog) (f : Nat) (t : WorkItem) (s : LineageState) :
    ∃ ext, (resolveF cat f t s).visited = s.visited ++ ext := by
  refine resolveF_induct cat (fun a b => ∃ ext, b.visited = a.visited ++ ext)
    (fun s => ⟨[], by simp⟩) ?_ ?_ ?_ ?_ f t s
  · rintro a b c ⟨e1, h1⟩ ⟨e2, h2⟩
    exact ⟨e1 ++ e2, by rw [h2, h1, List.append_assoc]⟩
  · intro s d p; exact ⟨[], by simp⟩
  · intro s name sql adv _
    exact ⟨[name], by simp [recordView, logViewFetch, markVisited]⟩
  · intro s name adv _
    exact ⟨[name], by simp [resolveTablePath_visited, logViewFetch, markVisited]⟩

/-! ### The termination measure -/

theorem mem_keys_of_lookup {α : Type} {l : List (String × α)} {k : String} {v : α}
    (h : l.lookup k = some v) : k ∈ l.map Prod.fst := by
  induction l with
  | nil => cases h
  | cons p ps ih =>
      rcases p with ⟨a, b⟩
      rw [List.lookup_cons] at h
      cases hka : k == a with
      | true => simp [eq_of_beq hka]
      | false =>
          rw [hka] at h
          exact List.mem_cons_of_mem _ (ih h)

theorem sum_filter_erase (w : String → Nat) (l : List String) (hnd : l.Nodup)
    (a : String) (ha : a ∈ l) (v : List String) (hav : v.contains a = false) :
    ((l.filter (fun n => !((v ++ [a]).contains n))).map w).sum + w a
      = ((l.filter (fun n => !(v.contains n))).map w).sum := by
  induction l with
  | nil => cases ha
  | cons b bl ih =>
      rcases List.mem_cons.mp ha with rfl | hma
      · have hnota : a ∉ bl := (List.nodup_cons.mp hnd).1
        have htail : bl.filter (fun n => !((v ++ [a]).contains n))
            = bl.filter (fun n => !(v.contains n)) := by
          refine List.filter_congr (fun x hx => ?_)
          have hxa : (x == a) = false := by
            simp only [beq_eq_false_iff_ne, ne_eq]
            exact fun hh => hnota (hh ▸ hx)
          rw [contains_append_singleton, hxa, Bool.or_false]
        have hpa1 : (!((v ++ [a]).contains a)) = false := by
          rw [contains_append_singleton]; simp
        have hpa2 : (!(v.contains a)) = true := by rw [hav]; rfl
        rw [List.filter_cons, List.filter_cons, hpa1, hpa2, htail]
        simp [Nat.add_comm]
      · have hba : (b == a) = false := by
          simp only [beq_eq_false_iff_ne, ne_eq]
          exact fun hh => (List.nodup_cons.mp hnd).1 (hh ▸ hma)
        have hhead : (!((v ++ [a]).contains b)) = (!(v.contains b)) := by
          rw [contains_append_singleton, hba, Bool.or_false]
        have ihr := ih (List.nodup_cons.mp hnd).2 hma
        rw [List.filter_cons, List.filter_cons, hhead]
        cases hpb : (!(v.contains b)) with
        | true => simp only [if_true, List.map_cons, List.sum_cons]; omega
        | false => simpa using ihr

theorem needMeasure_decrease (cat : Catalog) (visited : List String) (name sql : String)
    (hv : visited.contains name = false)
    (hl : cat.views.lookup name = some (Except.ok sql)) (hs : (sql == "") = false) :
    needMeasure cat (visited ++ [name]) + ((extract_dependencies sql).length + 2)
      = needMeasure cat visited := by
  have hmem : name ∈ (cat.views.map Prod.fst).dedup :=
    List.mem_dedup.mpr (mem_keys_of_lookup hl)
  have hnd := List.nodup_dedup (cat.views.map Prod.fst)
  have hsum := sum_filter_erase (viewWeight cat) _ hnd name hmem visited hv
  have hw : viewWeight cat name = (extract_dependencies sql).length + 2 := by
    unfold viewWeight; rw [hl]; simp [hs]
  unfold needMeasure
  rw [← hsum, hw]

theorem needMeasure_append_le (cat : Catalog) (v ext : List String) :
    needMeasure cat (v ++ ext) ≤ needMeasure cat v := by
  unfold needMeasure
  have hsub : ((cat.views.map Prod.fst).dedup.filter
        (fun n => !((v ++ ext).contains n))).Sublist
      ((cat.views.map Prod.fst).dedup.filter (fun n => !(v.contains n))) := by
    refine List.monotone_filter_right _ (fun a ha => ?_)
    have h1 : a ∉ v ++ ext := (contains_false_iff _ _).mp (by simpa using ha)
    have h2 : a ∉ v := fun hm => h1 (List.mem_append.mpr (Or.inl hm))
    simpa using (contains_false_iff _ _).mpr h2
  exact (hsub.map _).sum_le_sum (fun a _ => Nat.zero_le a)

theorem needMeasure_resolveF_le (cat : Catalog) (f : Nat) (t : WorkItem) (s : LineageState) :
    needMeasure cat (resolveF cat f t s).visited ≤ needMeasure cat s.visited := by
  obtain ⟨ext, hext⟩ := visited_extend cat f t s
  rw [hext]
  exact needMeasure_append_le cat s.visited ext

/-! ### Fuel adequacy: `fuelBound` is always enough -/

theorem resolveF_step (cat : Catalog) :
    ∀ (f : Nat) (t : WorkItem) (s : LineageState),
      needMeasure cat s.visited + taskNeed t + 1 ≤ f →
      resolveF cat f t s = resolveF cat (f + 1) t s := by
  intro f
  induction f with
  | zero => intro t s h; omega
  | succ f ih =>
    intro t s hf
    cases t with
    | deps ds parent =>
        cases ds with
        | nil => simp only [resolveF]
        | cons d ds =>
            have hinner : resolveF cat f (WorkItem.visit d)
                  { s with graph := addEdge s.graph d parent }
                = resolveF cat (f + 1) (WorkItem.visit d)
                  { s with graph := addEdge s.graph d parent } := by
              refine ih _ _
                (show needMeasure cat s.visited + taskNeed (WorkItem.visit d) + 1 ≤ f from ?_)
              simp only [taskNeed, List.length_cons] at hf ⊢
              omega
            have houter : resolveF cat f (WorkItem.deps ds parent)
                  (resolveF cat (f + 1) (WorkItem.visit d)
                    { s with graph := addEdge s.graph d parent })
                = resolveF cat (f + 1) (WorkItem.deps ds parent)
                  (resolveF cat (f + 1) (WorkItem.visit d)
                    { s with graph := addEdge s.graph d parent }) := by
              refine ih _ _ ?_
              have hmono : needMeasure cat (resolveF cat (f + 1) (WorkItem.visit d)
                    { s with graph := addEdge s.graph d parent }).visited
                  ≤ needMeasure cat s.visited :=
                needMeasure_resolveF_le cat (f + 1) _ _
              simp only [taskNeed, List.length_cons] at hf ⊢
              omega
            calc resolveF cat (f + 1) (WorkItem.deps (d :: ds) parent) s
                = resolveF cat f (WorkItem.deps ds parent)
                    (resolveF cat f (WorkItem.visit d)
                      { s with graph := addEdge s.graph d parent }) := rfl
              _ = resolveF cat f (WorkItem.deps ds parent)
                    (resolveF cat (f + 1) (WorkItem.visit d)
                      { s with graph := addEdge s.graph d parent }) := by rw [hinner]
              _ = resolveF cat (f + 1) (WorkItem.deps ds parent)
                    (resolveF cat (f + 1) (WorkItem.visit d)
                      { s with graph := addEdge s.graph d parent }) := houter
              _ = resolveF cat (f + 1 + 1) (WorkItem.deps (d :: ds) parent) s := rfl
    | visit name =>
        by_cases hv : s.visited.contains name = true
        · simp only [resolveF, hv, if_true]
        · have hv' : s.visited.contains name = false := Bool.eq_false_iff.mpr hv
          cases hl : cat.views.lookup name with
          | none =>
              simp only [resolveF, hv', Bool.false_eq_true, if_false,
                fetch_view_of_lookup_none hl]
          | some r =>
              cases r with
              | error e =>
                  simp only [resolveF, hv', Bool.false_eq_true, if_false,
                    fetch_view_of_lookup_error hl]
              | ok sql =>
                  by_cases hsql : (sql == "") = true
                  · simp only [resolveF, hv', Bool.false_eq_true, if_false,
                      fetch_view_of_lookup_ok hl, hsql, if_true]
                  · have hsql' : (sql == "") = false := Bool.eq_false_iff.mpr hsql
                    simp only [resolveF, hv', Bool.false_eq_true, if_false,
                      fetch_view_of_lookup_ok hl, hsql', if_false]
                    refine ih _ _ ?_
                    have hdec := needMeasure_decrease cat s.visited name sql hv' hl hsql'
                    have hvis : (recordView (logViewFetch (markVisited s name) name []) name
                        sql).visited = s.visited ++ [name] := by
                      simp [recordView, logViewFetch, markVisited]
                    rw [hvis]
                    simp only [taskNeed] at hf ⊢
                    omega

theorem resolveF_stable_aux (cat : Catalog) (root : String) :
    ∀ (k : Nat), resolveF cat (fuelBound cat + k) (WorkItem.visit root) initState
      = build_full_lineage cat root := by
  intro k
  induction k with
  | zero => rfl
  | succ k ih =>
      have hstep := resolveF_step cat (fuelBound cat + k) (WorkItem.visit root) initState
        (by simp only [taskNeed, fuelBound, initState]; omega)
      rw [show fuelBound cat + (k + 1) = (fuelBound cat + k) + 1 by omega, ← hstep, ih]

/-- Fuel adequacy: any fuel at least `fuelBound cat` computes the same result
as `build_full_lineage`, i.e. the recursion has fully stabilized within the
bound — the formal counterpart of termination on an arbitrary finite catalog. -/
theorem resolveF_stable (cat : Catalog) (root : String) (f : Nat)
    (h : fuelBound cat ≤ f) :
    resolveF cat f (WorkItem.visit root) initState = build_full_lineage cat root := by
  have := resolveF_stable_aux cat root (f - fuelBound cat)
  rwa [show fuelBound cat + (f - fuelBound cat) = f by omega] at this

/-! ### Graph lemmas -/

theorem addNode_edges (g : Digraph) (u : String) : (addNode g u).edges = g.edges := by
  unfold addNode; split <;> rfl

theorem mem_nodes_addNode (g : Digraph) (u n : String) :
    n ∈ (addNode g u).nodes ↔ n ∈ g.nodes ∨ n = u := by
  unfold addNode
  by_cases h : g.nodes.contains u = true
  · rw [if_pos h]
    constructor
    · exact Or.inl
    · rintro (hn | rfl)
      · exact hn
      · exact (contains_iff_mem _ _).mp h
  · rw [if_neg h]; simp

theorem addEdge_nodes (g : Digraph) (u v : String) :
    (addEdge g u v).nodes = (addNode (addNode g u) v).nodes := by
  by_cases h : (addNode (addNode g u) v).edges.contains (u, v) = true
  · simp only [addEdge, h, if_true]
  · simp only [addEdge, h, Bool.false_eq_true, if_false]

theorem mem_nodes_addEdge (g : Digraph) (u v n : String) :
    n ∈ (addEdge g u v).nodes ↔ n ∈ g.nodes ∨ n = u ∨ n = v := by
  rw [addEdge_nodes, mem_nodes_addNode, mem_nodes_addNode, or_assoc]

theorem mem_edges_addEdge (g : Digraph) (u v : String) (e : String × String) :
    e ∈ (addEdge g u v).edges ↔ e ∈ g.edges ∨ e = (u, v) := by
  by_cases h : (addNode (addNode g u) v).edges.contains (u, v) = true
  · simp only [addEdge, h, if_true]
    rw [addNode_edges, addNode_edges] at h ⊢
    constructor
    · exact Or.inl
    · rintro (he | rfl)
      · exact he
      · exact (contains_iff_mem _ _).mp h
  · simp only [addEdge, h, Bool.false_eq_true, if_false]
    simp [addNode_edges]

theorem goodGraph_addEdge (g : Digraph) (u v : String) (h : GoodGraph g) :
    GoodGraph (addEdge g u v) := by
  constructor
  · intro n hn
    rcases (mem_nodes_addEdge g u v n).mp hn with hg | rfl | rfl
    · obtain ⟨e, he, hor⟩ := h.1 n hg
      exact ⟨e, (mem_edges_addEdge g u v e).mpr (Or.inl he), hor⟩
    · exact ⟨(n, v), (mem_edges_addEdge g n v _).mpr (Or.inr rfl), Or.inl rfl⟩
    · exact ⟨(u, n), (mem_edges_addEdge g u n _).mpr (Or.inr rfl), Or.inr rfl⟩
  · intro e he
    rcases (mem_edges_addEdge g u v e).mp he with hg | rfl
    · obtain ⟨h1, h2⟩ := h.2 e hg
      exact ⟨(mem_nodes_addEdge g u v _).mpr (Or.inl h1),
        (mem_nodes_addEdge g u v _).mpr (Or.inl h2)⟩
    · exact ⟨(mem_nodes_addEdge g u v _).mpr (Or.inr (Or.inl rfl)),
        (mem_nodes_addEdge g u v _).mpr (Or.inr (Or.inr rfl))⟩

theorem resolveF_goodGraph (cat : Catalog) (f : Nat) (t : WorkItem) (s : LineageState)
    (h : GoodGraph s.graph) : GoodGraph (resolveF cat f t s).graph :=
  resolveF_induct cat (fun a b => GoodGraph a.graph → GoodGraph b.graph)
    (fun _ hh => hh) (fun _ _ _ hab hbc hh => hbc (hab hh))
    (fun s d p hh => goodGraph_addEdge s.graph d p hh)
    (fun _ _ _ _ _ hh => hh)
    (fun s name adv _ hh => by
      rw [resolveTablePath_graph]
      exact hh)
    f t s h

/-! ### The visited set is recorded before any fetch; no name is fetched twice -/

theorem goodLog_mark (s : LineageState) (name : String) (adv : List String)
    (hv : s.visited.contains name = false) (h : GoodLog s) :
    GoodLog (logViewFetch (markVisited s name) name adv) := by
  have hnv : name ∉ s.visited := (contains_false_iff _ _).mp hv
  have hnl : name ∉ s.view_fetch_log := fun hm => hnv (h.2 name hm)
  constructor
  · simp only [logViewFetch, markVisited]
    rw [List.nodup_append]
    exact ⟨h.1, List.nodup_singleton name, fun a ha hb => hnl ((List.mem_singleton.mp hb) ▸ ha)⟩
  · intro x hx
    simp only [logViewFetch, markVisited] at hx ⊢
    rcases List.mem_append.mp hx with hx | hx
    · exact List.mem_append.mpr (Or.inl (h.2 x hx))
    · exact List.mem_append.mpr (Or.inr hx)

theorem goodLog_resolveTablePath (cat : Catalog) (n : String) (s : LineageState)
    (h : GoodLog s) : GoodLog (resolveTablePath cat n s) := by
  constructor
  · rw [resolveTablePath_vlog]; exact h.1
  · intro x hx
    rw [resolveTablePath_vlog] at hx
    rw [resolveTablePath_visited]
    exact h.2 x hx

theorem resolveF_goodLog (cat : Catalog) (f : Nat) (t : WorkItem) (s : LineageState)
    (h : GoodLog s) : GoodLog (resolveF cat f t s) :=
  resolveF_induct cat (fun a b => GoodLog a → GoodLog b)
    (fun _ hh => hh) (fun _ _ _ hab hbc hh => hbc (hab hh))
    (fun _ _ _ hh => hh)
    (fun s name sql adv hv hh => goodLog_mark s name adv hv hh)
    (fun s name adv hv hh =>
      goodLog_resolveTablePath cat name _ (goodLog_mark s name adv hv hh))
    f t s h

/-! ### Record keys are visited, and the two record dicts are disjoint -/

theorem goodRecords_view_step (s : LineageState) (name sql : String) (adv : List String)
    (hv : s.visited.contains name = false) (h : GoodRecords s) :
    GoodRecords (recordView (logViewFetch (markVisited s name) name adv) name sql) := by
  have hnv : name ∉ s.visited := (contains_false_iff _ _).mp hv
  refine ⟨?_, ?_, ?_⟩
  · intro k hk
    simp only [recordView, logViewFetch, markVisited] at hk ⊢
    rcases (dictInsert_keys _ _ _ _).mp hk with hk | rfl
    · exact List.mem_append.mpr (Or.inl (h.1 k hk))
    · exact List.mem_append.mpr (Or.inr (List.mem_singleton.mpr rfl))
  · intro k hk
    simp only [recordView, logViewFetch, markVisited] at hk ⊢
    exact List.mem_append.mpr (Or.inl (h.2.1 k hk))
  · intro k hk hk'
    simp only [recordView, logViewFetch, markVisited] at hk hk'
    rcases (dictInsert_keys _ _ _ _).mp hk with hk | rfl
    · exact h.2.2 k hk hk'
    · exact hnv (h.2.1 k hk')

theorem goodRecords_table_step (cat : Catalog) (s : LineageState) (name : String)
    (adv : List String) (hv : s.visited.contains name = false) (h : GoodRecords s) :
    GoodRecords (resolveTablePath cat name (logViewFetch (markVisited s name) name adv)) := by
  have hnv : name ∉ s.visited := (contains_false_iff _ _).mp hv
  have hddl : (resolveTablePath cat name
      (logViewFetch (markVisited s name) name adv)).ddl_dict = s.ddl_dict := by
    rw [resolveTablePath_ddl]; rfl
  have hvis : (resolveTablePath cat name
      (logViewFetch (markVisited s name) name adv)).visited = s.visited ++ [name] := by
    rw [resolveTablePath_visited]; rfl
  refine ⟨?_, ?_, ?_⟩
  · intro k hk
    rw [hddl] at hk
    rw [hvis]
    exact List.mem_append.mpr (Or.inl (h.1 k hk))
  · intro k hk
    rw [hvis]
    have := resolveTablePath_table_keys cat name _ k hk
    simp only [logViewFetch, markVisited] at this
    rcases this with hk' | rfl
    · exact List.mem_append.mpr (Or.inl (h.2.1 k hk'))
    · exact List.mem_append.mpr (Or.inr (List.mem_singleton.mpr rfl))
  · intro k hk hk'
    rw [hddl] at hk
    have := resolveTablePath_table_keys cat name _ k hk'
    simp only [logViewFetch, markVisited] at this
    rcases this with hk'' | rfl
    · exact h.2.2 k hk hk''
    · exact hnv (h.1 k hk)

theorem resolveF_goodRecords (cat : Catalog) (f : Nat) (t : WorkItem) (s : LineageState)
    (h : GoodRecords s) : GoodRecords (resolveF cat f t s) :=
  resolveF_induct cat (fun a b => GoodRecords a → GoodRecords b)
    (fun _ hh => hh) (fun _ _ _ hab hbc hh => hbc (hab hh))
    (fun _ _ _ hh => hh)
    (fun s name sql adv hv hh => goodRecords_view_step s name sql adv hv hh)
    (fun s name adv hv hh => goodRecords_table_step cat s name adv hv hh)
    f t s h

/-! ### One-step characterization of the table-fallback path -/

theorem resolveTablePath_tlog (cat : Catalog) (n : String) (s : LineageState) :
    (resolveTablePath cat n s).table_fetch_log = s.table_fetch_log ++ [tableKeyOf n] := by
  unfold resolveTablePath
  rcases h : fetch_table_metadata cat (tableKeyOf n).1 (tableKeyOf n).2 with ⟨md, adv⟩
  cases md <;> simp [logTableFetch] <;> split <;> simp [logTableFetch]

theorem resolveTablePath_table_some (cat : Catalog) (n : String) (s : LineageState)
    (rows : List ColumnMeta)
    (hmd : (fetch_table_metadata cat (tableKeyOf n).1 (tableKeyOf n).2).1 = some rows) :
    (resolveTablePath cat n s).table_metadata_dict
      = dictInsert s.table_metadata_dict n rows := by
  have hne := fetch_table_some_ne_nil hmd
  unfold resolveTablePath
  rcases hfull : fetch_table_metadata cat (tableKeyOf n).1 (tableKeyOf n).2 with ⟨md, adv⟩
  rw [hfull] at hmd
  cases md with
  | none => cases hmd
  | some rs =>
      have hrs : rs = rows := by simpa using hmd
      subst hrs
      simp only [hne, Bool.false_eq_true, if_false]
      rfl

theorem resolveTablePath_table_none (cat : Catalog) (n : String) (s : LineageState)
    (hmd : (fetch_table_metadata cat (tableKeyOf n).1 (tableKeyOf n).2).1 = none) :
    (resolveTablePath cat n s).table_metadata_dict = s.table_metadata_dict := by
  unfold resolveTablePath
  rcases hfull : fetch_table_metadata cat (tableKeyOf n).1 (tableKeyOf n).2 with ⟨md, adv⟩
  rw [hfull] at hmd
  cases md with
  | none => rfl
  | some rs => cases hmd

/-- A name whose view definition comes back falsy (absent or empty) is resolved
through the table-fallback path, after being marked visited and its fetch
logged. -/
theorem resolveF_visit_table_path (cat : Catalog) (f : Nat) (n : String) (s : LineageState)
    (hv : s.visited.contains n = false)
    (hfalsy : (fetch_view_definition cat n).1 = none ∨
      (fetch_view_definition cat n).1 = some "") :
    resolveF cat (f + 1) (WorkItem.visit n) s
      = resolveTablePath cat n
          (logViewFetch (markVisited s n) n (fetch_view_definition cat n).2) := by
  rcases hfv : fetch_view_definition cat n with ⟨vo, adv⟩
  rw [hfv] at hfalsy
  cases vo with
  | none => simp only [resolveF, hv, Bool.false_eq_true, if_false, hfv]
  | some sql =>
      have hsql : sql = "" := by
        rcases hfalsy with h | h
        · cases h
        · simpa using h
      subst hsql
      simp only [resolveF, hv, Bool.false_eq_true, if_false, hfv]
      rfl

/-! ### Collaborator errors are absorbed: a run over a catalog with throwing
fetches produces exactly the run over the error-free catalog (advisories
aside) -/

theorem lookup_map_value {α β γ : Type} [BEq α] (g : β → γ) (l : List (α × β)) (k : α) :
    (l.map (fun p => (p.1, g p.2))).lookup k = (l.lookup k).map g := by
  induction l with
  | nil => rfl
  | cons p ps ih =>
      rcases p with ⟨a, b⟩
      simp only [List.map_cons, List.lookup_cons]
      cases hka : k == a
      · exact ih
      · rfl

theorem absorb_views_lookup (cat : Catalog) (n : String) :
    (absorbCatalog cat).views.lookup n = (cat.views.lookup n).map absorbView := by
  unfold absorbCatalog
  exact lookup_map_value absorbView cat.views n

theorem absorb_tables_lookup (cat : Catalog) (db tbl : String) :
    (absorbCatalog cat).tables.lookup (db, tbl)
      = (cat.tables.lookup (db, tbl)).map absorbTable := by
  unfold absorbCatalog
  exact lookup_map_value absorbTable cat.tables (db, tbl)

theorem fetch_table_absorb (cat : Catalog) (db tbl : String) :
    (fetch_table_metadata (absorbCatalog cat) db tbl).1
      = (fetch_table_metadata cat db tbl).1 := by
  cases hl : cat.tables.lookup (db, tbl) with
  | none =>
      rw [fetch_table_of_lookup_none hl,
        fetch_table_of_lookup_none (by rw [absorb_tables_lookup, hl]; rfl)]
  | some r =>
      cases r with
      | ok rs =>
          rw [fetch_table_of_lookup_ok hl,
            fetch_table_of_lookup_ok (show (absorbCatalog cat).tables.lookup (db, tbl)
              = some (Except.ok rs) by rw [absorb_tables_lookup, hl]; rfl)]
      | error e =>
          rw [fetch_table_of_lookup_error hl,
            fetch_table_of_lookup_ok (show (absorbCatalog cat).tables.lookup (db, tbl)
              = some (Except.ok ([] : List ColumnMeta)) by
                rw [absorb_tables_lookup, hl]; rfl)]
          rfl

theorem silentEq_logTableFetch {s s' : LineageState} (key : String × String)
    (a a' : List String) (h : SilentEq s s') :
    SilentEq (logTableFetch s key a) (logTableFetch s' key a') := by
  obtain ⟨hg, hv, hd, ht, hvl, htl⟩ := h
  exact ⟨hg, hv, hd, ht, hvl, by simp only [logTableFetch]; rw [htl]⟩

theorem resolveTablePath_silentEq (cat : Catalog) (n : String) {s s' : LineageState}
    (h : SilentEq s s') :
    SilentEq (resolveTablePath cat n s) (resolveTablePath (absorbCatalog cat) n s') := by
  have hmd := fetch_table_absorb cat (tableKeyOf n).1 (tableKeyOf n).2
  unfold resolveTablePath
  rcases h1 : fetch_table_metadata cat (tableKeyOf n).1 (tableKeyOf n).2 with ⟨md, adv⟩
  rcases h2 : fetch_table_metadata (absorbCatalog cat) (tableKeyOf n).1 (tableKeyOf n).2
    with ⟨md', adv'⟩
  rw [h1, h2] at hmd
  obtain rfl : md' = md := by simpa using hmd
  cases md' with
  | none => exact silentEq_logTableFetch _ _ _ h
  | some rows =>
      by_cases he : rows.isEmpty = true
      · simp only [he, if_true]
        exact silentEq_logTableFetch _ _ _ h
      · have he' : rows.isEmpty = false := Bool.eq_false_iff.mpr he
        simp only [he', Bool.false_eq_true, if_false]
        obtain ⟨hg, hv, hd, ht, hvl, htl⟩ := h
        refine ⟨hg, hv, hd, ?_, hvl, ?_⟩
        · simp only [logTableFetch]; rw [ht]
        · simp only [logTableFetch]; rw [htl]

theorem silentEq_viewMark {s s' : LineageState} (n sql : String) (a a' : List String)
    (h : SilentEq s s') :
    SilentEq (recordView (logViewFetch (markVisited s n) n a) n sql)
      (recordView (logViewFetch (markVisited s' n) n a') n sql) := by
  obtain ⟨hg, hv, hd, ht, hvl, htl⟩ := h
  refine ⟨hg, ?_, ?_, ht, ?_, htl⟩
  · simp only [recordView, logViewFetch, markVisited]; rw [hv]
  · simp only [recordView, logViewFetch, markVisited]; rw [hd]
  · simp only [recordView, logViewFetch, markVisited]; rw [hvl]

theorem silentEq_mark {s s' : LineageState} (n : String) (a a' : List String)
    (h : SilentEq s s') :
    SilentEq (logViewFetch (markVisited s n) n a) (logViewFetch (markVisited s' n) n a') := by
  obtain ⟨hg, hv, hd, ht, hvl, htl⟩ := h
  refine ⟨hg, ?_, hd, ht, ?_, htl⟩
  · simp only [logViewFetch, markVisited]; rw [hv]
  · simp only [logViewFetch, markVisited]; rw [hvl]

theorem resolveF_absorb (cat : Catalog) :
    ∀ (f : Nat) (t : WorkItem) (s s' : LineageState), SilentEq s s' →
      SilentEq (resolveF cat f t s) (resolveF (absorbCatalog cat) f t s') := by
  intro f
  induction f with
  | zero => intro t s s' h; simpa only [resolveF] using h
  | succ f ih =>
    intro t s s' h
    cases t with
    | deps ds parent =>
        cases ds with
        | nil => simpa only [resolveF] using h
        | cons d ds =>
            simp only [resolveF]
            refine ih _ _ _ (ih _ _ _ ?_)
            obtain ⟨hg, hv, hd, ht, hvl, htl⟩ := h
            exact ⟨by rw [hg], hv, hd, ht, hvl, htl⟩
    | visit name =>
        have hcv : s'.visited.contains name = s.visited.contains name := by rw [h.2.1]
        by_cases hvis : s.visited.contains name = true
        · rw [show resolveF cat (f + 1) (WorkItem.visit name) s = s by
            simp only [resolveF, hvis, if_true]]
          rw [show resolveF (absorbCatalog cat) (f + 1) (WorkItem.visit name) s' = s' by
            simp only [resolveF, hcv, hvis, if_true]]
          exact h
        · have hvis' : s.visited.contains name = false := Bool.eq_false_iff.mpr hvis
          have hcv' : s'.visited.contains name = false := by rw [hcv, hvis']
          cases hl : cat.views.lookup name with
          | none =>
              have hl' : (absorbCatalog cat).views.lookup name = none := by
                rw [absorb_views_lookup, hl]; rfl
              rw [show resolveF cat (f + 1) (WorkItem.visit name) s
                  = resolveTablePath cat name (logViewFetch (markVisited s name) name []) by
                simp only [resolveF, hvis', Bool.false_eq_true, if_false,
                  fetch_view_of_lookup_none hl]]
              rw [show resolveF (absorbCatalog cat) (f + 1) (WorkItem.visit name) s'
                  = resolveTablePath (absorbCatalog cat) name
                      (logViewFetch (markVisited s' name) name []) by
                simp only [resolveF, hcv', Bool.false_eq_true, if_false,
                  fetch_view_of_lookup_none hl']]
              exact resolveTablePath_silentEq cat name (silentEq_mark name [] [] h)
          | some r =>
              cases r with
              | error e =>
                  have hl' : (absorbCatalog cat).views.lookup name
                      = some (Except.ok "") := by
                    rw [absorb_views_lookup, hl]; rfl
                  rw [show resolveF cat (f + 1) (WorkItem.visit name) s
                      = resolveTablePath cat name (logViewFetch (markVisited s name) name
                          ["Error fetching view definition: " ++ e]) by
                    simp only [resolveF, hvis', Bool.false_eq_true, if_false,
                      fetch_view_of_lookup_error hl]]
                  rw [show resolveF (absorbCatalog cat) (f + 1) (WorkItem.visit name) s'
                      = resolveTablePath (absorbCatalog cat) name
                          (logViewFetch (markVisited s' name) name []) by
                    simp only [resolveF, hcv', Bool.false_eq_true, if_false,
                      fetch_view_of_lookup_ok hl']
                    rfl]
                  exact resolveTablePath_silentEq cat name (silentEq_mark name _ [] h)
              | ok sql =>
                  have hl' : (absorbCatalog cat).views.lookup name
                      = some (Except.ok sql) := by
                    rw [absorb_views_lookup, hl]; rfl
                  by_cases hsql : (sql == "") = true
                  · rw [show resolveF cat (f + 1) (WorkItem.visit name) s
                        = resolveTablePath cat name
                            (logViewFetch (markVisited s name) name []) by
                      simp only [resolveF, hvis', Bool.false_eq_true, if_false,
                        fetch_view_of_lookup_ok hl, hsql, if_true]]
                    rw [show resolveF (absorbCatalog cat) (f + 1) (WorkItem.visit name) s'
                        = resolveTablePath (absorbCatalog cat) name
                            (logViewFetch (markVisited s' name) name []) by
                      simp only [resolveF, hcv', Bool.false_eq_true, if_false,
                        fetch_view_of_lookup_ok hl', hsql, if_true]]
                    exact resolveTablePath_silentEq cat name (silentEq_mark name [] [] h)
                  · have hsql' : (sql == "") = false := Bool.eq_false_iff.mpr hsql
                    rw [show resolveF cat (f + 1) (WorkItem.visit name) s
                        = resolveF cat f (WorkItem.deps (extract_dependencies sql) name)
                            (recordView (logViewFetch (markVisited s name) name [])
                              name sql) by
                      simp only [resolveF, hvis', Bool.false_eq_true, if_false,
                        fetch_view_of_lookup_ok hl, hsql', if_false]]
                    rw [show resolveF (absorbCatalog cat) (f + 1) (WorkItem.visit name) s'
                        = resolveF (absorbCatalog cat) f
                            (WorkItem.deps (extract_dependencies sql) name)
                            (recordView (logViewFetch (markVisited s' name) name [])
                              name sql) by
                      simp only [resolveF, hcv', Bool.false_eq_true, if_false,
                        fetch_view_of_lookup_ok hl', hsql', if_false]]
                    exact ih _ _ _ (silentEq_viewMark name sql [] [] h)

theorem keys_absorb (cat : Catalog) :
    (absorbCatalog cat).views.map Prod.fst = cat.views.map Prod.fst := by
  unfold absorbCatalog
  rw [List.map_map]
  exact List.map_congr_left (fun p _ => rfl)

theorem viewWeight_absorb (cat : Catalog) (n : String) :
    viewWeight (absorbCatalog cat) n = viewWeight cat n := by
  unfold viewWeight
  rw [absorb_views_lookup]
  cases hl : cat.views.lookup n with
  | none => rfl
  | some r =>
      cases r with
      | ok s => rfl
      | error e => rfl

theorem needMeasure_absorb (cat : Catalog) (v : List String) :
    needMeasure (absorbCatalog cat) v = needMeasure cat v := by
  unfold needMeasure
  rw [keys_absorb]
  exact congrArg List.sum (List.map_congr_left (fun a _ => viewWeight_absorb cat a))

theorem fuelBound_absorb (cat : Catalog) :
    fuelBound (absorbCatalog cat) = fuelBound cat := by
  unfold fuelBound
  rw [needMeasure_absorb]

/-- `build_full_lineage` over any catalog, throwing fetches included, computes
exactly the graph, visited set, records, and fetch logs of the run over the
error-free catalog: every collaborator failure is absorbed at the failing
fetch and nothing propagates out of the resolution. -/
theorem build_absorb (cat : Catalog) (root : String) :
    SilentEq (build_full_lineage cat root)
      (build_full_lineage (absorbCatalog cat) root) := by
  unfold build_full_lineage
  rw [fuelBound_absorb]
  exact resolveF_absorb cat (fuelBound cat) (WorkItem.visit root) initState initState
    ⟨rfl, rfl, rfl, rfl, rfl, rfl⟩

/-! ### Shape of the extraction output -/

theorem matchIdent_ident {r ident rest : List Char}
    (h : matchIdent r = some (ident, rest)) :
    ident ≠ [] ∧ ∀ c ∈ ident, isIdentChar c = true := by
  unfold matchIdent at h
  by_cases hsp : (r.takeWhile isPySpace).isEmpty = true
  · rw [if_pos hsp] at h; cases h
  · rw [if_neg hsp] at h
    by_cases hid : ((r.dropWhile isPySpace).takeWhile isIdentChar).isEmpty = true
    · rw [if_pos hid] at h; cases h
    · rw [if_neg hid] at h
      have hi : (r.dropWhile isPySpace).takeWhile isIdentChar = ident := by
        have := congrArg (fun p => (Option.getD p ([], [])).1) h
        simpa using this
      constructor
      · rw [← hi]
        intro hnil
        rw [hnil] at hid
        exact hid rfl
      · intro c hc
        rw [← hi] at hc
        exact List.mem_takeWhile_imp hc

theorem matchClause_ident {kw cs : List Char} {ident rest : List Char}
    (h : matchClause kw cs = some (ident, rest)) :
    ident ≠ [] ∧ ∀ c ∈ ident, isIdentChar c = true := by
  unfold matchClause at h
  cases hk : matchKeywordCI kw cs with
  | none => rw [hk, Option.none_bind] at h; cases h
  | some r =>
      rw [hk, Option.some_bind] at h
      exact matchIdent_ident h

theorem tryHit_ident {b : Bool} {cs ident rest : List Char}
    (h : tryHit b cs = some (ident, rest)) :
    ident ≠ [] ∧ ∀ c ∈ ident, isIdentChar c = true := by
  unfold tryHit at h
  by_cases hb : b = true
  · rw [if_pos hb] at h; cases h
  · rw [if_neg hb] at h
    cases hf : matchClause ['f', 'r', 'o', 'm'] cs with
    | some r =>
        rw [hf] at h
        rcases r with ⟨i, rs⟩
        have : i = ident ∧ rs = rest := by
          constructor <;> [exact congrArg (fun p => (Option.getD p ([], [])).1) h;
            exact congrArg (fun p => (Option.getD p ([], [])).2) h]
        obtain ⟨rfl, rfl⟩ := this
        exact matchClause_ident hf
    | none =>
        rw [hf] at h
        exact matchClause_ident h

theorem scan_mem {x : String} :
    ∀ {fuel : Nat} {b : Bool} {cs : List Char}, x ∈ scanFromJoin fuel b cs →
      x.data ≠ [] ∧ ∀ c ∈ x.data, isIdentChar c = true := by
  intro fuel
  induction fuel with
  | zero => intro b cs h; cases h
  | succ fuel ih =>
      intro b cs h
      cases cs with
      | nil => cases h
      | cons c cs =>
          rw [show scanFromJoin (fuel + 1) b (c :: cs)
              = match tryHit b (c :: cs) with
                | some (ident, rest) =>
                    String.mk ident ::
                      scanFromJoin fuel (isPyWordChar (ident.getLastD '.')) rest
                | none => scanFromJoin fuel (isPyWordChar c) cs from rfl] at h
          cases hh : tryHit b (c :: cs) with
          | none => rw [hh] at h; exact ih h
          | some p =>
              rcases p with ⟨ident, rest⟩
              rw [hh] at h
              rcases List.mem_cons.mp h with rfl | hmem
              · obtain ⟨hne, hall⟩ := tryHit_ident hh
                exact ⟨hne, hall⟩
              · exact ih hmem

theorem dropWhile_eq_self_of_all {p : Char → Bool} {l : List Char}
    (h : ∀ c ∈ l, p c = false) : l.dropWhile p = l := by
  cases l with
  | nil => rfl
  | cons c cs => simp [List.dropWhile_cons, h c (List.mem_cons_self c cs)]

theorem pyStrip_eq_self {s : String} (h : ∀ c ∈ s.data, isPySpace c = false) :
    pyStrip s = s := by
  unfold pyStrip pyStripChars
  rw [dropWhile_eq_self_of_all h,
    dropWhile_eq_self_of_all (fun c hc => h c (List.mem_reverse.mp hc)),
    List.reverse_reverse]

theorem isIdentChar_not_space {c : Char} (h : isIdentChar c = true) :
    isPySpace c = false := by
  cases hs : isPySpace c with
  | false => rfl
  | true =>
      exfalso
      simp only [isPySpace, Bool.or_eq_true, beq_iff_eq] at hs
      rcases hs with ((((rfl | rfl) | rfl) | rfl) | rfl) | rfl <;>
        exact absurd h (by decide)

theorem mem_foldl_setAdd {l : List String} {acc : List String} {x : String}
    (h : x ∈ l.foldl (fun a i => setAdd a (pyStrip i)) acc) :
    x ∈ acc ∨ ∃ y ∈ l, x = pyStrip y := by
  induction l generalizing acc with
  | nil => exact Or.inl h
  | cons i il ih =>
      rcases ih h with hacc | ⟨y, hy, rfl⟩
      · by_cases hc : pyStrip i ∈ acc
        · exact Or.inl (by simpa [setAdd, hc] using hacc)
        · have : x ∈ acc ++ [pyStrip i] := by
            simpa [setAdd, hc] using hacc
          rcases List.mem_append.mp this with hx | hx
          · exact Or.inl hx
          · exact Or.inr ⟨i, List.mem_cons_self i il, List.mem_singleton.mp hx⟩
      · exact Or.inr ⟨y, List.mem_cons_of_mem i hy, rfl⟩

theorem nodup_foldl_setAdd {l : List String} {acc : List String} (h : acc.Nodup) :
    (l.foldl (fun a i => setAdd a (pyStrip i)) acc).Nodup := by
  induction l generalizing acc with
  | nil => exact h
  | cons i il ih =>
      apply ih
      by_cases hc : pyStrip i ∈ acc
      · simpa [setAdd, hc] using h
      · have : (acc ++ [pyStrip i]).Nodup := by
          rw [List.nodup_append]
          exact ⟨h, List.nodup_singleton _,
            fun a ha hb => hc ((List.mem_singleton.mp hb) ▸ ha)⟩
        simpa [setAdd, hc] using this

theorem foldl_setAdd_id {l acc : List String} (hnd : (acc ++ l).Nodup)
    (hs : ∀ x ∈ l, pyStrip x = x) :
    l.foldl (fun a i => setAdd a (pyStrip i)) acc = acc ++ l := by
  induction l generalizing acc with
  | nil => simp
  | cons i il ih =>
      have hsi : pyStrip i = i := hs i (List.mem_cons_self i il)
      have hnotin : i ∉ acc := fun hin =>
        (List.nodup_append.mp hnd).2.2 hin (List.mem_cons_self i il)
      have hstep : setAdd acc (pyStrip i) = acc ++ [i] := by
        rw [hsi]
        simp [setAdd, hnotin]
      rw [List.foldl_cons, hstep, ih (by rwa [← List.append_cons])
        (fun x hx => hs x (List.mem_cons_of_mem i hx)), ← List.append_cons]

/-- Every element of `extract_dependencies` is a non-empty run of word-or-dot
characters, already stripped; the list has no duplicates; and re-running the
set-building pass over the result changes nothing. -/
theorem extract_dependencies_shape (t : String) :
    (extract_dependencies t).Nodup ∧
    (∀ x ∈ extract_dependencies t,
      pyStrip x = x ∧ x ≠ "" ∧ ∀ c ∈ x.data, isIdentChar c = true) := by
  constructor
  · exact nodup_foldl_setAdd List.nodup_nil
  · intro x hx
    unfold extract_dependencies at hx
    rcases mem_foldl_setAdd hx with hn | ⟨y, hy, rfl⟩
    · cases hn
    · obtain ⟨hne, hall⟩ := scan_mem hy
      have hystrip : pyStrip y = y :=
        pyStrip_eq_self (fun c hc => isIdentChar_not_space (hall c hc))
      rw [hystrip]
      refine ⟨hystrip, ?_, hall⟩
      intro hemp
      exact hne (congrArg String.data hemp)

/-! ### `split('.', 1)` splits at the first dot only -/

theorem splitDotChars_spec (a : List Char) (hnd : ∀ c ∈ a, (c == '.') = false) :
    ∀ (acc b : List Char), splitDotChars acc (a ++ '.' :: b) = (acc.reverse ++ a, b) := by
  induction a with
  | nil => intro acc b; simp [splitDotChars]
  | cons c a ih =>
      intro acc b
      have hc := hnd c (List.mem_cons_self c a)
      rw [List.cons_append, show splitDotChars acc (c :: (a ++ '.' :: b))
          = if c == '.' then (acc.reverse, a ++ '.' :: b)
            else splitDotChars (c :: acc) (a ++ '.' :: b) from rfl, hc]
      simp only [Bool.false_eq_true, if_false]
      rw [ih (fun x hx => hnd x (List.mem_cons_of_mem c hx)) (c :: acc) b]
      simp

theorem pySplitDot1_spec (a b : List Char) (hnd : ∀ c ∈ a, (c == '.') = false) :
    pySplitDot1 (String.mk (a ++ '.' :: b)) = (String.mk a, String.mk b) := by
  unfold pySplitDot1
  rw [show (String.mk (a ++ '.' :: b)).data = a ++ '.' :: b from rfl,
    splitDotChars_spec a hnd [] b]
  simp

/-! ## The claims -/

/-- Claim C1, counterexample: for the chain A → B → C of views (discovery order
A, B, C), the report's view-definition section is `reversed(ddl_dict.keys())`,
which is NOT root-first [A, B, C] as the claim states. -/
theorem c1_counterexample :
    (build_full_lineage catABC "A").ddl_dict.map Prod.fst = ["A", "B", "C"] ∧
    report_view_order (build_full_lineage catABC "A") ≠ ["A", "B", "C"] := by
  constructor
  · decide
  · decide

/-- Claim C1, amended: for the chain A → B → C of views the view-definitions
section lists the views in reversed discovery order — deepest dependency
first, root LAST: [C, B, A] — while the table-metadata section lists tables in
discovery (dict-insertion) order. -/
theorem c1_report_order :
    report_view_order (build_full_lineage catABC "A") = ["C", "B", "A"] ∧
    report_view_order (build_full_lineage catChainTables "A") = ["C", "B", "A"] ∧
    report_table_order (build_full_lineage catChainTables "A") = ["db1.t1", "db2.t2"] := by
  refine ⟨by decide, by decide, by decide⟩

/-- Claim C2, counterexample: a root that resolves as a view but has no
extracted dependencies is recorded in ViewRecords yet is NOT a node of the
returned graph (nodes are only ever created by `add_edge`). -/
theorem c2_counterexample :
    (build_full_lineage catSolo "A").ddl_dict.map Prod.fst = ["A"] ∧
    "A" ∉ (build_full_lineage catSolo "A").graph.nodes ∧
    (build_full_lineage catSolo "A").graph.nodes = [] := by
  refine ⟨by decide, by decide, by decide⟩

/-- Claim C2, amended: the nodes of the returned graph are exactly the
endpoints of the discovered dependency edges — every node lies on some edge,
and both endpoints of every edge are nodes; a resolved root with no extracted
dependencies is therefore absent from the graph. -/
theorem c2_nodes_are_edge_endpoints :
    (∀ (cat : Catalog) (root n : String),
        n ∈ (build_full_lineage cat root).graph.nodes →
        ∃ e ∈ (build_full_lineage cat root).graph.edges, n = e.1 ∨ n = e.2) ∧
    (∀ (cat : Catalog) (root : String) (e : String × String),
        e ∈ (build_full_lineage cat root).graph.edges →
        e.1 ∈ (build_full_lineage cat root).graph.nodes ∧
        e.2 ∈ (build_full_lineage cat root).graph.nodes) := by
  have hg : ∀ (cat : Catalog) (root : String),
      GoodGraph (build_full_lineage cat root).graph := fun cat root =>
    resolveF_goodGraph cat _ _ initState
      ⟨fun n hn => absurd hn (List.not_mem_nil n), fun e he => absurd he (List.not_mem_nil e)⟩
  exact ⟨fun cat root n hn => (hg cat root).1 n hn,
    fun cat root e he => (hg cat root).2 e he⟩

/-- Witness for C2's amended theorem at a concrete input: the edge (B, A)
discovered for `catABC` has both endpoints among the graph's nodes. -/
theorem c2_nodes_are_edge_endpoints_witness :
    ("B", "A").1 ∈ (build_full_lineage catABC "A").graph.nodes ∧
    ("B", "A").2 ∈ (build_full_lineage catABC "A").graph.nodes :=
  c2_nodes_are_edge_endpoints.2 catABC "A" ("B", "A") (by decide)

/-- Claim C3: collaborator errors are absorbed at the failing fetch.  A run
over any catalog — throwing fetches included — produces exactly the graph,
visited set, records, and fetch logs of the run over the error-free catalog
(`SilentEq`); the caller always receives the accumulators.  Concretely, when
fetching B's definition raises, the error is reported as a single advisory,
B falls back to table resolution, and sibling C is still resolved. -/
theorem c3_errors_absorbed :
    (∀ (cat : Catalog) (root : String),
        SilentEq (build_full_lineage cat root)
          (build_full_lineage (absorbCatalog cat) root)) ∧
    (build_full_lineage catErr "A").advisories
      = ["Error fetching view definition: boom"] ∧
    (build_full_lineage catErr "A").ddl_dict.map Prod.fst = ["A", "C"] ∧
    (build_full_lineage catErr "A").table_metadata_dict.map Prod.fst = ["B"] := by
  refine ⟨build_absorb, by decide, by decide, by decide⟩

/-- Claim C4: on the cyclic catalog A ↔ B, `build_full_lineage A` terminates
with A and B each recorded exactly once; a visited name is never re-expanded;
every fetched name is in the visited set and no name is fetched twice; and on
any finite catalog the recursion stabilizes within the computable fuel bound. -/
theorem c4_cycle_termination :
    (build_full_lineage catCycle "A").ddl_dict.map Prod.fst = ["A", "B"] ∧
    ((build_full_lineage catCycle "A").ddl_dict.map Prod.fst).count "A" = 1 ∧
    ((build_full_lineage catCycle "A").ddl_dict.map Prod.fst).count "B" = 1 ∧
    (∀ (cat : Catalog) (f : Nat) (n : String) (s : LineageState),
        s.visited.contains n = true → resolveF cat f (WorkItem.visit n) s = s) ∧
    (∀ (cat : Catalog) (root : String),
        (build_full_lineage cat root).view_fetch_log.Nodup ∧
        ∀ x ∈ (build_full_lineage cat root).view_fetch_log,
          x ∈ (build_full_lineage cat root).visited) ∧
    (∀ (cat : Catalog) (root : String) (f : Nat), fuelBound cat ≤ f →
        resolveF cat f (WorkItem.visit root) initState = build_full_lineage cat root) := by
  refine ⟨by decide, by decide, by decide, ?_, ?_, ?_⟩
  · intro cat f n s h
    cases f with
    | zero => rfl
    | succ f => simp only [resolveF, h, if_true]
  · intro cat root
    exact resolveF_goodLog cat _ _ initState
      ⟨List.nodup_nil, fun x hx => absurd hx (List.not_mem_nil x)⟩
  · intro cat root f hf
    exact resolveF_stable cat root f hf

/-- Witness for C4 at a concrete input: a name already in the visited set is
not re-expanded. -/
theorem c4_cycle_termination_witness :
    resolveF catCycle 3 (WorkItem.visit "A") stateVisitedA = stateVisitedA :=
  c4_cycle_termination.2.2.2.1 catCycle 3 "A" stateVisitedA (by decide)

/-- Claim C5: on the diamond (A references B and C, both reference D),
`fetch_view_definition` is called on D exactly once, and the graph's edges are
exactly D→B, D→C, B→A, C→A (as a set, directed dependency → dependent), with
no parallel edges. -/
theorem c5_diamond :
    (build_full_lineage catDiamond "A").view_fetch_log.count "D" = 1 ∧
    (build_full_lineage catDiamond "A").graph.edges.Perm
      [("D", "B"), ("D", "C"), ("B", "A"), ("C", "A")] ∧
    (build_full_lineage catDiamond "A").graph.edges.Nodup := by
  refine ⟨by decide, by decide, by decide⟩

/-- Claim C6: a name whose view definition is absent (or empty) but whose
table lookup returns non-empty columns is recorded in TableRecords with
exactly those columns and leaves ViewRecords untouched; in every run the keys
of the two record dicts are disjoint (a view is never also a table record).
Concretely, `sales.orders` with three columns lands in TableRecords only. -/
theorem c6_fallback_to_table :
    (∀ (cat : Catalog) (f : Nat) (n : String) (s : LineageState)
        (rows : List ColumnMeta),
        s.visited.contains n = false →
        ((fetch_view_definition cat n).1 = none ∨
          (fetch_view_definition cat n).1 = some "") →
        (fetch_table_metadata cat (tableKeyOf n).1 (tableKeyOf n).2).1 = some rows →
        (resolveF cat (f + 1) (WorkItem.visit n) s).table_metadata_dict
            = dictInsert s.table_metadata_dict n rows ∧
          (resolveF cat (f + 1) (WorkItem.visit n) s).ddl_dict = s.ddl_dict) ∧
    (∀ (cat : Catalog) (root k : String),
        k ∈ (build_full_lineage cat root).ddl_dict.map Prod.fst →
        k ∉ (build_full_lineage cat root).table_metadata_dict.map Prod.fst) ∧
    (build_full_lineage catSales "sales.orders").table_metadata_dict
      = [("sales.orders", salesCols)] ∧
    (build_full_lineage catSales "sales.orders").ddl_dict = [] := by
  refine ⟨?_, ?_, by decide, by decide⟩
  · intro cat f n s rows hv hfalsy hmd
    rw [resolveF_visit_table_path cat f n s hv hfalsy]
    constructor
    · rw [resolveTablePath_table_some cat n _ rows hmd]
      simp [logViewFetch, markVisited]
    · rw [resolveTablePath_ddl]
      simp [logViewFetch, markVisited]
  · intro cat root k hk
    exact (resolveF_goodRecords cat _ _ initState
      ⟨fun x hx => absurd hx (List.not_mem_nil x),
        fun x hx => absurd hx (List.not_mem_nil x),
        fun x hx => absurd hx (List.not_mem_nil x)⟩).2.2 k hk

/-- Witness for C6 at a concrete input: resolving `sales.orders` against
`catSales` records exactly the three columns and leaves ViewRecords empty. -/
theorem c6_fallback_to_table_witness :
    (resolveF catSales (5 + 1) (WorkItem.visit "sales.orders") initState).table_metadata_dict
        = dictInsert initState.table_metadata_dict "sales.orders" salesCols ∧
      (resolveF catSales (5 + 1) (WorkItem.visit "sales.orders") initState).ddl_dict
        = initState.ddl_dict :=
  c6_fallback_to_table.1 catSales 5 "sales.orders" initState salesCols (by decide)
    (Or.inl (by decide)) (by decide)

/-- Claim C7: when a name's view definition is falsy, the table fetch is
issued with the name split at its first dot, or with the fallback schema
`"dbc"` and the bare name when it contains no dot.  Concretely, bare
`"orders"` is looked up as `("dbc", "orders")`. -/
theorem c7_schema_defaulting :
    (∀ (cat : Catalog) (f : Nat) (n : String) (s : LineageState),
        s.visited.contains n = false →
        ((fetch_view_definition cat n).1 = none ∨
          (fetch_view_definition cat n).1 = some "") →
        (resolveF cat (f + 1) (WorkItem.visit n) s).table_fetch_log
          = s.table_fetch_log
            ++ [if n.data.contains '.' then pySplitDot1 n else ("dbc", n)]) ∧
    (build_full_lineage catOrders "orders").table_fetch_log = [("dbc", "orders")] := by
  refine ⟨?_, by decide⟩
  intro cat f n s hv hfalsy
  rw [resolveF_visit_table_path cat f n s hv hfalsy, resolveTablePath_tlog]
  rfl

/-- Witness for C7 at a concrete input: the single table fetch for bare
`"orders"` uses the fallback schema. -/
theorem c7_schema_defaulting_witness :
    (resolveF catOrders (3 + 1) (WorkItem.visit "orders") initState).table_fetch_log
      = initState.table_fetch_log
        ++ [if ("orders" : String).data.contains '.' then pySplitDot1 "orders"
            else ("dbc", "orders")] :=
  c7_schema_defaulting.1 catOrders 3 "orders" initState (by decide) (Or.inl (by decide))

/-- Claim C9: a name absent from both the view and the table lookup changes
neither record dict — it is only marked visited — and the build still returns
with the records accumulated for the rest of the graph.  Concretely, dangling
B leaves ViewRecords = [A] and TableRecords = [db9.t9]. -/
theorem c9_dangling_reference :
    (∀ (cat : Catalog) (f : Nat) (n : String) (s : LineageState),
        s.visited.contains n = false →
        ((fetch_view_definition cat n).1 = none ∨
          (fetch_view_definition cat n).1 = some "") →
        (fetch_table_metadata cat (tableKeyOf n).1 (tableKeyOf n).2).1 = none →
        (resolveF cat (f + 1) (WorkItem.visit n) s).ddl_dict = s.ddl_dict ∧
          (resolveF cat (f + 1) (WorkItem.visit n) s).table_metadata_dict
            = s.table_metadata_dict ∧
          (resolveF cat (f + 1) (WorkItem.visit n) s).visited = s.visited ++ [n]) ∧
    (build_full_lineage catDangling "A").ddl_dict.map Prod.fst = ["A"] ∧
    (build_full_lineage catDangling "A").table_metadata_dict.map Prod.fst
      = ["db9.t9"] ∧
    (build_full_lineage catDangling "A").visited = ["A", "B", "db9.t9"] := by
  refine ⟨?_, by decide, by decide, by decide⟩
  intro cat f n s hv hfalsy hmd
  rw [resolveF_visit_table_path cat f n s hv hfalsy]
  refine ⟨?_, ?_, ?_⟩
  · rw [resolveTablePath_ddl]
    simp [logViewFetch, markVisited]
  · rw [resolveTablePath_table_none cat n _ hmd]
    simp [logViewFetch, markVisited]
  · rw [resolveTablePath_visited]
    simp [logViewFetch, markVisited]

/-- Witness for C9 at a concrete input: dangling name B (absent from both
lookups in `catDangling`) contributes no record and is only marked visited. -/
theorem c9_dangling_reference_witness :
    (resolveF catDangling (3 + 1) (WorkItem.visit "B") initState).ddl_dict
        = initState.ddl_dict ∧
      (resolveF catDangling (3 + 1) (WorkItem.visit "B") initState).table_metadata_dict
        = initState.table_metadata_dict ∧
      (resolveF catDangling (3 + 1) (WorkItem.visit "B") initState).visited
        = initState.visited ++ ["B"] :=
  c9_dangling_reference.1 catDangling 3 "B" initState (by decide) (Or.inl (by decide))
    (by decide)

/-- Claim C8: `extract_dependencies` is deterministic and idempotent as a
set-valued function: its output has no duplicates, every element is an
already-stripped non-empty run of word-or-dot characters, and re-running the
set-building pass over the output reproduces it; FROM/JOIN are matched
case-insensitively. -/
theorem c8_extraction_idempotent :
    (∀ t : String,
        (extract_dependencies t).Nodup ∧
        (extract_dependencies t).foldl (fun acc item => setAdd acc (pyStrip item)) []
          = extract_dependencies t ∧
        ∀ x ∈ extract_dependencies t,
          pyStrip x = x ∧ x ≠ "" ∧ ∀ c ∈ x.data, isIdentChar c = true) ∧
    extract_dependencies "select x from Foo.Bar join baz_2, t" = ["Foo.Bar", "baz_2"] := by
  refine ⟨?_, by decide⟩
  intro t
  obtain ⟨hnd, hmem⟩ := extract_dependencies_shape t
  refine ⟨hnd, ?_, hmem⟩
  exact foldl_setAdd_id (by simpa using hnd) (fun x hx => (hmem x hx).1)

/-- Witness for C8 at a concrete input: `"db1.t1"` extracted from a FROM/JOIN
query is stripped and non-empty. -/
theorem c8_extraction_idempotent_witness :
    pyStrip "db1.t1" = "db1.t1" ∧ ("db1.t1" : String) ≠ "" :=
  ⟨(((c8_extraction_idempotent.1 "SELECT a FROM db1.t1 JOIN db2.t2").2.2)
      "db1.t1" (by decide)).1,
    (((c8_extraction_idempotent.1 "SELECT a FROM db1.t1 JOIN db2.t2").2.2)
      "db1.t1" (by decide)).2.1⟩

/-- Claim C10: `split('.', 1)` splits at the first dot only — the schema is
the text before the first dot and the table name is the entire remainder,
further dots included; the builder's table fetch for `"a.b.c"` uses
`("a", "b.c")`. -/
theorem c10_split_first_dot :
    (∀ a b : List Char, (∀ c ∈ a, (c == '.') = false) →
        pySplitDot1 (String.mk (a ++ '.' :: b)) = (String.mk a, String.mk b)) ∧
    pySplitDot1 "a.b.c" = ("a", "b.c") ∧
    (build_full_lineage catEmpty "a.b.c").table_fetch_log = [("a", "b.c")] := by
  refine ⟨pySplitDot1_spec, by decide, by decide⟩

/-- Witness for C10 at a concrete input: splitting `"a.b.c"` at the first
dot. -/
theorem c10_split_first_dot_witness :
    pySplitDot1 (String.mk (['a'] ++ '.' :: ['b', '.', 'c']))
      = (String.mk ['a'], String.mk ['b', '.', 'c']) :=
  c10_split_first_dot.1 ['a'] ['b', '.', 'c'] (by decide)

end DataLineage
